import Mathlib

/-!
A verification development for the Teloquent ORM (TypeScript).

The definitions below are a shallow embedding of the core of the library:
attribute values, rows, the query specification built by `QueryBuilder`,
the `Collection` transformations, the `ScopeManager` registry, the Active
Record lifecycle of `Model` (save / delete / restore), the relation engine
(`HasOne`, `HasMany`, `BelongsTo`, `BelongsToMany`) with its eager-loading
dictionary matching, and the pivot operations (`attach` / `detach` / `sync`).

JavaScript particulars that matter to the embedded code are modelled
explicitly: attribute lookup returns `null` for an absent key
(`Model.getAttribute` defaults to `null`), JS object keys are strings so
dictionary keys built from attribute values go through a string conversion
(`valKey`), truthiness (`!attributes[updatedAt]`) is modelled by `truthy`,
and SQL equality (`where(col, v)`) never matches `NULL` operands.
-/

namespace Teloquent

/-- An attribute value: SQL NULL / JS null, an integer (also used for
timestamps, modelling `Date` values by their tick count), a string, or a
boolean.  `Model.getAttribute` returns `null` for an absent key, so absent
and null coincide downstream of attribute access. -/
inductive Val where
  | vNull : Val
  | vInt (n : Int) : Val
  | vStr (s : String) : Val
  | vBool (b : Bool) : Val
deriving DecidableEq, Repr

/-- JS truthiness of a value, as used by `!attributes[updatedAt]` in
`Model.save` (null/0/empty string/false are falsy). -/
def Val.truthy : Val → Bool
  | .vNull => false
  | .vInt n => n != 0
  | .vStr s => s != ""
  | .vBool b => b

/-- The string a value turns into when used as a JS object property key
(dictionary keys in the relation `matchResults` methods). -/
def Val.valKey : Val → String
  | .vNull => "null"
  | .vInt n => toString n
  | .vStr s => s
  | .vBool b => if b then "true" else "false"

/-- A database row / an entity's attribute map: an insertion-ordered
association list with unique keys (JS object). -/
abbrev Row := List (String × Val)

/-- Attribute lookup; returns `vNull` when the key is absent, matching
`Model.getAttribute(key, defaultValue = null)`. -/
def getAttr (r : Row) (k : String) : Val :=
  match r.find? (fun p => p.1 = k) with
  | some p => p.2
  | none => .vNull

/-- JS object assignment `obj[k] = v`: overwrite in place if the key is
present, else append (insertion order preserved). -/
def setAttr (r : Row) (k : String) (v : Val) : Row :=
  if r.any (fun p => p.1 = k) then
    r.map (fun p => if p.1 = k then (k, v) else p)
  else
    r ++ [(k, v)]

/-- Build a JS object literal from a list of assignments executed in order
(later assignments overwrite earlier ones), as in
`{ [fpk]: parentId, [rpk]: id, ...attributes }`. -/
def objFromList (assigns : List (String × Val)) : Row :=
  assigns.foldl (fun r p => setAttr r p.1 p.2) []

end Teloquent

namespace Teloquent

/-! ## JS `Map` operations (insertion-ordered association lists)

The `ScopeManager` stores its registry in nested JS `Map`s.  `Map.set`
overwrites in place when the key is present (keeping its position) and
appends otherwise; `Map.get` returns the bound value; `Map.delete` removes
the entry and reports whether it was present; iteration follows insertion
order. -/

def mapGet? [DecidableEq κ] (m : List (κ × β)) (k : κ) : Option β :=
  (m.find? (fun p => p.1 = k)).map (fun p => p.2)

def mapSet [DecidableEq κ] (m : List (κ × β)) (k : κ) (v : β) : List (κ × β) :=
  if m.any (fun p => p.1 = k) then
    m.map (fun p => if p.1 = k then (k, v) else p)
  else
    m ++ [(k, v)]

def mapDelete [DecidableEq κ] (m : List (κ × β)) (k : κ) : Bool × List (κ × β) :=
  (m.any (fun p => p.1 = k), m.filter (fun p => p.1 ≠ k))

theorem find?_mapReplace [DecidableEq κ] (m : List (κ × β)) (k : κ) (v : β)
    (h : m.any (fun p => p.1 = k) = true) :
    (m.map (fun p => if p.1 = k then (k, v) else p)).find? (fun p => p.1 = k) = some (k, v) := by
  induction m with
  | nil => simp at h
  | cons a t ihm =>
    by_cases ha : a.1 = k
    · rw [List.map_cons, if_pos ha, List.find?_cons_of_pos _ (by simp)]
    · have hd : (decide (a.1 = k)) = false := decide_eq_false ha
      rw [List.any_cons, hd, Bool.false_or] at h
      rw [List.map_cons, if_neg ha, List.find?_cons_of_neg _ (by simpa using ha)]
      exact ihm h

theorem find?_append_absent [DecidableEq κ] (m : List (κ × β)) (k : κ) (v : β)
    (h : m.any (fun p => p.1 = k) = false) :
    (m ++ [(k, v)]).find? (fun p => p.1 = k) = some (k, v) := by
  induction m with
  | nil => rw [List.nil_append, List.find?_cons_of_pos _ (by simp)]
  | cons a t ihm =>
    rw [List.any_cons, Bool.or_eq_false_iff] at h
    have ha : ¬a.1 = k := by simpa using h.1
    rw [List.cons_append, List.find?_cons_of_neg _ (by simpa using ha)]
    exact ihm h.2

theorem mapGet?_mapSet_self [DecidableEq κ] (m : List (κ × β)) (k : κ) (v : β) :
    mapGet? (mapSet m k v) k = some v := by
  unfold mapSet mapGet?
  by_cases h : m.any (fun p => p.1 = k)
  · rw [if_pos h, find?_mapReplace m k v h]
    rfl
  · rw [if_neg h, find?_append_absent m k v (Bool.eq_false_iff.mpr h)]
    rfl

theorem mapSet_any_self [DecidableEq κ] (m : List (κ × β)) (k : κ) (v : β) :
    (mapSet m k v).any (fun p => p.1 = k) = true := by
  have h := mapGet?_mapSet_self m k v
  unfold mapGet? at h
  cases hf : (mapSet m k v).find? (fun p => p.1 = k) with
  | none => rw [hf] at h; simp at h
  | some p =>
    have hmem := List.mem_of_find?_eq_some hf
    have hp := List.find?_some hf
    exact List.any_eq_true.mpr ⟨p, hmem, hp⟩

theorem mapGet?_mapDelete_self [DecidableEq κ] (m : List (κ × β)) (k : κ) :
    mapGet? (mapDelete m k).2 k = none := by
  unfold mapDelete mapGet?
  induction m with
  | nil => rfl
  | cons a t ihm =>
    rw [List.filter_cons]
    by_cases ha : a.1 = k
    · have hd : (decide (a.1 ≠ k)) = false := by simp [ha]
      rw [hd]
      simp only [Bool.false_eq_true, if_false]
      exact ihm
    · have hd : (decide (a.1 ≠ k)) = true := by simpa using ha
      rw [hd]
      simp only [if_true]
      rw [List.find?_cons_of_neg _ (by simpa using ha)]
      exact ihm

end Teloquent

namespace Teloquent

/-! ## Collection (src/src/Collection.ts)

`Collection` wraps a JS array; we embed the array as a `List`.  `slice`
follows `Array.prototype.slice` semantics, including negative indices. -/

/-- Clamp a possibly negative JS slice index to an array offset:
negative indices count from the end (`max(len + i, 0)`), nonnegative ones
are capped at `len`. -/
def jsSliceIndex (len : Nat) (i : Int) : Nat :=
  if i < 0 then ((len : Int) + i).toNat else min i.toNat len

/-- `Collection.slice(start, end?)` = `items.slice(start, end)`
(src/src/Collection.ts:173-175), with JS `Array.prototype.slice`
semantics. -/
def Collection.slice (items : List α) (start : Int) (stop : Option Int) : List α :=
  let k := jsSliceIndex items.length start
  let fin := match stop with
    | none => items.length
    | some e => jsSliceIndex items.length e
  (items.take fin).drop k

/-- `Collection.take(n)` = `slice(0, n)` (src/src/Collection.ts:181-183). -/
def Collection.take (items : List α) (n : Int) : List α :=
  Collection.slice items 0 (some n)

/-- `Collection.takeLast(n)` = `slice(-n)` (src/src/Collection.ts:189-191).
Note that in JS `-0` is `0`, so `takeLast(0)` is `slice(0)`. -/
def Collection.takeLast (items : List α) (n : Nat) : List α :=
  Collection.slice items (-(n : Int)) none

end Teloquent

namespace Teloquent

/-- C10 helper: for `1 ≤ n`, `takeLast` keeps the last `min n len`
elements, i.e. drops the first `len - n`. -/
theorem takeLast_pos (items : List α) (n : Nat) (hn : 1 ≤ n) :
    Collection.takeLast items n = items.drop (items.length - n) := by
  unfold Collection.takeLast Collection.slice jsSliceIndex
  have hlt : (-(n : Int)) < 0 := by omega
  simp only [hlt, if_true]
  have : ((items.length : Int) + -(n : Int)).toNat = items.length - n := by omega
  rw [this, List.take_length]

theorem takeLast_zero (items : List α) :
    Collection.takeLast items 0 = items := by
  unfold Collection.takeLast Collection.slice jsSliceIndex
  simp

end Teloquent

namespace Teloquent

/-! ## Entity types and query specifications (src/src/QueryBuilder.ts)

An `EntityType` carries the static metadata of a `Model` subclass:
the class name (`Model.name`, used by the `ScopeManager` as registry key),
table name, primary key, the `usesTimestamps` / `usesSoftDeletes` flags and
the timestamp column names.  `classId` stands for the JS class object's
identity, so two distinct classes may share a `name`. -/

structure EntityType where
  classId : Nat
  name : String
  tableName : String
  primaryKey : String := "id"
  usesTimestamps : Bool := true
  usesSoftDeletes : Bool := false
  CREATED_AT : String := "created_at"
  UPDATED_AT : String := "updated_at"
  DELETED_AT : String := "deleted_at"
deriving DecidableEq, Repr

/-- A predicate clause accumulated by the builder: `where(col, v)`,
`whereIn(col, vs)` and `whereNull(col)` — the clauses the verified claims
exercise. -/
inductive Pred where
  | eq (col : String) (v : Val)
  | inList (col : String) (vs : List Val)
  | isNull (col : String)
deriving DecidableEq, Repr

/-- The accumulated query specification: target table, predicate clauses in
insertion order, and the limit/offset window. -/
structure QuerySpec where
  table : String
  preds : List Pred := []
  limitN : Option Nat := none
  offsetN : Option Nat := none
deriving DecidableEq, Repr

/-- `QueryBuilder.getBaseQuery` (src/src/QueryBuilder.ts:38-51): start from
the model's table and, when the model uses soft deletes, add
`whereNull(tableName + "." + DELETED_AT)`.  No other clause is added — in
particular the constructor never consults the `ScopeManager`. -/
def getBaseQuery (et : EntityType) : QuerySpec :=
  { table := et.tableName
    preds := if et.usesSoftDeletes then
        [Pred.isNull (et.tableName ++ "." ++ et.DELETED_AT)] else [] }

/-- A column reference `tbl.col` issued against a single-table query
resolves to the bare column of that table (the base query qualifies the
soft-delete column as `tableName.deletedAt`).  Implemented on the
character lists underlying the strings. -/
def resolveCol (table col : String) : String :=
  let pre := (table ++ ".").data
  if pre.isPrefixOf col.data then { data := col.data.drop pre.length } else col

/-- SQL equality: `col = v` never matches when either side is NULL. -/
def sqlEq (a b : Val) : Bool :=
  a != .vNull && b != .vNull && a == b

/-- SQL `IN`: a NULL row value matches nothing, NULL list members match
nothing. -/
def sqlIn (a : Val) (vs : List Val) : Bool :=
  a != .vNull && vs.any (fun v => v != .vNull && v == a)

/-- Evaluate one predicate clause against a row of the queried table. -/
def rowMatches (table : String) (r : Row) : Pred → Bool
  | .eq col v => sqlEq (getAttr r (resolveCol table col)) v
  | .inList col vs => sqlIn (getAttr r (resolveCol table col)) vs
  | .isNull col => getAttr r (resolveCol table col) == .vNull

/-- A row satisfies the specification when it satisfies every clause. -/
def rowMatchesAll (q : QuerySpec) (r : Row) : Bool :=
  q.preds.all (rowMatches q.table r)

/-- The backing store: named tables of ordered rows. -/
structure DB where
  tables : List (String × List Row)
deriving DecidableEq, Repr

/-- The rows of a table (empty if the table does not exist). -/
def DB.rowsOf (db : DB) (t : String) : List Row :=
  (mapGet? db.tables t).getD []

/-- Replace the contents of one table. -/
def DB.setTable (db : DB) (t : String) (rows : List Row) : DB :=
  ⟨mapSet db.tables t rows⟩

theorem DB.rowsOf_setTable_self (db : DB) (t : String) (rows : List Row) :
    (db.setTable t rows).rowsOf t = rows := by
  unfold DB.rowsOf DB.setTable
  rw [mapGet?_mapSet_self]
  rfl

/-- Execute a specification (`get()`): filter, then apply the
offset/limit window — the row order of the table snapshot is preserved. -/
def runQuery (db : DB) (q : QuerySpec) : List Row :=
  let filtered := (db.rowsOf q.table).filter (rowMatchesAll q)
  let afterOffset := match q.offsetN with
    | some o => filtered.drop o
    | none => filtered
  match q.limitN with
  | some l => afterOffset.take l
  | none => afterOffset

/-- `QueryBuilder.update(values)` (src/src/QueryBuilder.ts:384-386):
set the given attributes on every row matching the specification. -/
def dbUpdate (db : DB) (q : QuerySpec) (sets : List (String × Val)) : DB :=
  db.setTable q.table
    ((db.rowsOf q.table).map (fun r =>
      if rowMatchesAll q r then sets.foldl (fun r' p => setAttr r' p.1 p.2) r else r))

/-- `QueryBuilder.delete()` (src/src/QueryBuilder.ts:391-393): remove every
row matching the specification. -/
def dbDelete (db : DB) (q : QuerySpec) : DB :=
  db.setTable q.table ((db.rowsOf q.table).filter (fun r => !rowMatchesAll q r))

/-- `QueryBuilder.insert(values)` (src/src/QueryBuilder.ts:376-378):
append the rows to the table. -/
def dbInsert (db : DB) (t : String) (rows : List Row) : DB :=
  db.setTable t (db.rowsOf t ++ rows)

end Teloquent

namespace Teloquent

/-! ## chunk (src/src/QueryBuilder.ts:318-337, 360-362)

`chunk(count, callback)` clones the builder, requests page 1, 2, 3, … via
`forPage(page, count)` (`offset((page-1)*count).limit(count)`), invokes the
callback on every non-empty page and stops at the first page holding fewer
than `count` rows.  Over the fixed ordered result set of the specification,
page `p` is `drop ((p-1)*k) |>.take k`; the loop below consumes the list
left to right, which is the same thing (`chunkCalls_calls`). -/

/-- `forPage(page, perPage)` over the fixed ordered result set. -/
def forPage (rows : List α) (page perPage : Nat) : List α :=
  (rows.drop ((page - 1) * perPage)).take perPage

/-- The do/while loop of `chunk`: the remaining rows are the suffix of the
result set from the current page onward.  Returns the list of callback
invocations `(pageItems, pageNumber)` in order. -/
def chunkAux (k : Nat) (remaining : List α) (page : Nat) : List (List α × Nat) :=
  let items := remaining.take k
  if h0 : items.length = 0 then []
  else if h1 : items.length = k then
    (items, page) :: chunkAux k (remaining.drop k) (page + 1)
  else [(items, page)]
termination_by remaining.length
decreasing_by
  unfold items at h0 h1
  simp only [List.length_take] at h0 h1
  simp only [List.length_drop]
  omega

/-- `chunk(k, callback)` on a query whose full ordered result set is
`rows`: the sequence of callback invocations. -/
def chunkCalls (k : Nat) (rows : List α) : List (List α × Nat) :=
  chunkAux k rows 1

/-- Master lemma about the chunk loop: for positive `k` and any starting
page, the loop performs `⌈|rem| / k⌉` calls, numbers them consecutively
from `page`, passes only non-empty pages, and the pages concatenate to
exactly the remaining rows. -/
theorem chunkAux_spec (k : Nat) (hk : 0 < k) :
    ∀ (rem : List α) (page : Nat),
      (chunkAux k rem page).length = (rem.length + k - 1) / k ∧
      (chunkAux k rem page).map Prod.snd =
        List.range' page ((rem.length + k - 1) / k) ∧
      (∀ c ∈ chunkAux k rem page, c.1 ≠ []) ∧
      ((chunkAux k rem page).map Prod.fst).flatten = rem := by
  suffices main : ∀ (n : Nat) (rem : List α), rem.length = n → ∀ (page : Nat),
      (chunkAux k rem page).length = (rem.length + k - 1) / k ∧
      (chunkAux k rem page).map Prod.snd =
        List.range' page ((rem.length + k - 1) / k) ∧
      (∀ c ∈ chunkAux k rem page, c.1 ≠ []) ∧
      ((chunkAux k rem page).map Prod.fst).flatten = rem by
    intro rem page
    exact main rem.length rem rfl page
  intro n
  induction n using Nat.strong_induction_on with
  | _ n ih =>
    intro rem hn page
    rw [chunkAux.eq_def]
    simp only [List.length_take]
    show _ ∧ _ ∧ _ ∧ _
    by_cases h0 : min k rem.length = 0
    · have hre : rem.length = 0 := by omega
      have hnil : rem = [] := List.eq_nil_of_length_eq_zero hre
      subst hnil
      rw [dif_pos h0]
      have hzero : (k - 1) / k = 0 := Nat.div_eq_of_lt (by omega)
      refine ⟨by simp [hzero], by simp [hzero], by simp, by simp⟩
    · rw [dif_neg h0]
      by_cases hfull : min k rem.length = k
      · rw [dif_pos hfull]
        have hkr : k ≤ rem.length := by omega
        have hdrop : (rem.drop k).length = rem.length - k := by
          simp [List.length_drop]
        have hlt : (rem.drop k).length < n := by omega
        obtain ⟨ih1, ih2, ih3, ih4⟩ := ih (rem.drop k).length hlt (rem.drop k) rfl (page + 1)
        have hcount : ((rem.drop k).length + k - 1) / k + 1 = (rem.length + k - 1) / k := by
          -- ⌈(len−k)/k⌉ + 1 = ⌈len/k⌉ when k ≤ len
          rw [hdrop]
          obtain ⟨m, hm⟩ := Nat.exists_eq_add_of_le hkr
          rw [hm]
          have h1 : (k + m - k + k - 1) / k = (m + k - 1) / k := by congr 1; omega
          have h2 : (k + m + k - 1) / k = (m + k - 1) / k + 1 := by
            have he : k + m + k - 1 = (m + k - 1) + 1 * k := by omega
            rw [he, Nat.add_mul_div_right _ _ hk]
          omega
        refine ⟨?_, ?_, ?_, ?_⟩
        · simp only [List.length_cons, ih1]
          exact hcount
        · simp only [List.map_cons, ih2]
          rw [← hcount, List.range'_succ]
        · intro c hc
          rcases List.mem_cons.mp hc with h | h
          · subst h
            intro habs
            have hlen := congrArg List.length habs
            simp only [List.length_take, List.length_nil] at hlen
            omega
          · exact ih3 c h
        · simp only [List.map_cons, List.flatten_cons, ih4]
          exact List.take_append_drop k rem
      · rw [dif_neg hfull]
        have hsmall : rem.length < k := by omega
        have hne : rem.length ≠ 0 := by omega
        have hcount : (rem.length + k - 1) / k = 1 := by
          have he : rem.length + k - 1 = (rem.length - 1) + k := by omega
          rw [he, Nat.add_div_right _ hk, Nat.div_eq_of_lt (by omega)]
        refine ⟨?_, ?_, ?_, ?_⟩
        · simp [hcount]
        · simp [hcount, List.range'_one]
        · intro c hc
          simp only [List.mem_singleton] at hc
          subst hc
          intro habs
          have hlen := congrArg List.length habs
          simp only [List.length_take, List.length_nil] at hlen
          omega
        · simp [List.take_of_length_le (le_of_lt hsmall)]

/-- C5 — Chunk coverage: for a query whose result set is the fixed ordered
list `rows` and any chunk size `k > 0`, `chunk(k, callback)` invokes the
callback exactly `⌈N/k⌉` times with pages numbered 1, 2, 3, …, every
invoked page is non-empty, and the pages concatenate to the full ordered
result set with no row skipped or duplicated.  The page count also shows
the loop stops at the first page with fewer than `k` rows (including zero
rows): there is no invocation past `⌈N/k⌉`. -/
theorem chunk_coverage (rows : List Row) (k : Nat) (hk : 0 < k) :
    (chunkCalls k rows).length = (rows.length + k - 1) / k ∧
    (chunkCalls k rows).map Prod.snd =
      List.range' 1 ((rows.length + k - 1) / k) ∧
    (∀ c ∈ chunkCalls k rows, c.1 ≠ []) ∧
    ((chunkCalls k rows).map Prod.fst).flatten = rows :=
  chunkAux_spec k hk rows 1

/-- C5 witness: five rows, chunk size two — three callback invocations,
pages 1, 2, 3, all non-empty, concatenating to the full result set. -/
theorem chunk_coverage_witness :
    (0 < 2) ∧
    ((chunkCalls 2 (List.map (fun n => [("id", Val.vInt n)]) [1, 2, 3, 4, 5])).length
        = (5 + 2 - 1) / 2 ∧
      (chunkCalls 2 (List.map (fun n => [("id", Val.vInt n)]) [1, 2, 3, 4, 5])).map Prod.snd
        = List.range' 1 ((5 + 2 - 1) / 2) ∧
      (∀ c ∈ chunkCalls 2 (List.map (fun n => [("id", Val.vInt n)]) [1, 2, 3, 4, 5]),
        c.1 ≠ []) ∧
      ((chunkCalls 2 (List.map (fun n => [("id", Val.vInt n)]) [1, 2, 3, 4, 5])).map
          Prod.fst).flatten
        = List.map (fun n => [("id", Val.vInt n)]) [1, 2, 3, 4, 5]) :=
  ⟨by decide, by
    have h := chunk_coverage (List.map (fun n => [("id", Val.vInt n)]) [1, 2, 3, 4, 5]) 2
      (by decide)
    simpa using h⟩

end Teloquent

namespace Teloquent

/-! ## ScopeManager (src/src/scopes/GlobalScope.ts)

`ScopeManager.globalScopes : Map<string, Map<string | Function, GlobalScope
| GlobalScopeCallback>>` — the OUTER key is **the model class's `name`
string** (`modelClass.name`), the inner key is either a scope name string
or a scope class (a `Function`, modelled by its identity `ctorId`).

A global scope acts on a builder by injecting predicate clauses (the spec
calls it a "predicate-injecting unit"; the scopes in the repository's tests
and examples call `builder.where(...)`); we record the injected clauses. -/

inductive ScopeKey where
  | str (s : String) : ScopeKey
  | ctor (classId : Nat) : ScopeKey
deriving DecidableEq, Repr

/-- A registered scope: either a callback function (carrying its JS
`Function.name`) or a `GlobalScope` object (carrying its constructor's
identity), together with the predicates its application injects. -/
inductive GlobalScopeDecl where
  | callback (fnName : String) (inject : List Pred) : GlobalScopeDecl
  | obj (ctorId : Nat) (inject : List Pred) : GlobalScopeDecl
deriving DecidableEq, Repr

def GlobalScopeDecl.inject : GlobalScopeDecl → List Pred
  | .callback _ ps => ps
  | .obj _ ps => ps

abbrev ScopeMap := List (ScopeKey × GlobalScopeDecl)

/-- The process-wide registry (static `ScopeManager.globalScopes`). -/
structure ScopeRegistry where
  globalScopes : List (String × ScopeMap) := []
deriving DecidableEq, Repr

/-- The key chosen by `addGlobalScope` (src/src/scopes/GlobalScope.ts:62-65):
`typeof scope === 'function' ? (name || scope.name || "scope_" + Date.now())
: scope.constructor`.  `||` takes the first truthy (non-empty) string;
`nowMs` stands for `Date.now()`. -/
def scopeKeyOf (scope : GlobalScopeDecl) (nameOpt : Option String) (nowMs : Nat) : ScopeKey :=
  match scope with
  | .callback fnName _ =>
    .str (match nameOpt with
      | some s => if s ≠ "" then s
          else if fnName ≠ "" then fnName else "scope_" ++ toString nowMs
      | none => if fnName ≠ "" then fnName else "scope_" ++ toString nowMs)
  | .obj cid _ => .ctor cid

/-- `ScopeManager.addGlobalScope` (src/src/scopes/GlobalScope.ts:48-69):
registers under the outer key `modelClass.name`, creating the inner map on
first use, then `modelScopes.set(key, scope)`. -/
def addGlobalScope (reg : ScopeRegistry) (modelClass : EntityType)
    (scope : GlobalScopeDecl) (nameOpt : Option String) (nowMs : Nat) : ScopeRegistry :=
  let modelName := modelClass.name
  let modelScopes := (mapGet? reg.globalScopes modelName).getD []
  let key := scopeKeyOf scope nameOpt nowMs
  ⟨mapSet reg.globalScopes modelName (mapSet modelScopes key scope)⟩

/-- `ScopeManager.removeGlobalScope` (src/src/scopes/GlobalScope.ts:77-89):
`false` when the model has no registry entry, else the result of
`modelScopes.delete(scope)` (and the registry with the entry removed). -/
def removeGlobalScope (reg : ScopeRegistry) (modelClass : EntityType)
    (key : ScopeKey) : Bool × ScopeRegistry :=
  match mapGet? reg.globalScopes modelClass.name with
  | none => (false, reg)
  | some modelScopes =>
    let d := mapDelete modelScopes key
    (d.1, ⟨mapSet reg.globalScopes modelClass.name d.2⟩)

/-- `ScopeManager.getGlobalScopes` (src/src/scopes/GlobalScope.ts:96-106):
a copy of the model's inner map (empty when absent). -/
def getGlobalScopes (reg : ScopeRegistry) (modelClass : EntityType) : ScopeMap :=
  (mapGet? reg.globalScopes modelClass.name).getD []

/-- `ScopeManager.applyGlobalScopes` (src/src/scopes/GlobalScope.ts:115-140):
iterate the model's inner map in insertion order and apply each scope whose
key is not in `excludedScopes` to the builder. -/
def applyGlobalScopes (reg : ScopeRegistry) (modelClass : EntityType)
    (excludedScopes : List ScopeKey) (q : QuerySpec) : QuerySpec :=
  match mapGet? reg.globalScopes modelClass.name with
  | none => q
  | some modelScopes =>
    modelScopes.foldl
      (fun acc p =>
        if p.1 ∈ excludedScopes then acc
        else { acc with preds := acc.preds ++ p.2.inject })
      q

/-- `new QueryBuilder(model)` (src/src/QueryBuilder.ts:30-33 together with
`getBaseQuery`, lines 38-51): the constructor sets
`query := getBaseQuery()`.  The process-wide scope registry is in scope as
ambient static state (`reg` here), but nothing in the constructor — or
anywhere else in `QueryBuilder` — calls `ScopeManager.applyGlobalScopes`,
so the constructed specification does not depend on `reg`. -/
def queryBuilderNew (reg : ScopeRegistry) (et : EntityType) : QuerySpec :=
  getBaseQuery et

end Teloquent

namespace Teloquent

/-- The `TestUser` model of tests/scopes.test.ts (no soft deletes). -/
def testUserTy : EntityType :=
  { classId := 1, name := "TestUser", tableName := "test_users",
    usesSoftDeletes := false }

/-- The `ActiveScope` of tests/scopes.test.ts: a `GlobalScope` object whose
`apply` performs `builder.where('active', true)`. -/
def activeScope : GlobalScopeDecl :=
  .obj 10 [Pred.eq "active" (Val.vBool true)]

/-- The registry after `TestUser.addGlobalScope(new ActiveScope())`. -/
def regWithActive : ScopeRegistry :=
  addGlobalScope ⟨[]⟩ testUserTy activeScope none 0

/-- C2 — the claim fails on the code: a newly constructed query
specification does NOT have the registered global scopes applied.
`QueryBuilder`'s constructor builds only the base query (the soft-delete
filter when enabled) and never invokes `ScopeManager.applyGlobalScopes`;
with `ActiveScope` registered for `TestUser`, `TestUser.query()` yields a
specification with an empty predicate set, whereas applying the registered
scopes (what the claim, the spec, and tests/scopes.test.ts:114-130 expect
of a default query) would inject `where('active', true)`. -/
theorem newQuery_omits_registered_global_scopes :
    (queryBuilderNew regWithActive testUserTy).preds = [] ∧
    (applyGlobalScopes regWithActive testUserTy []
        (queryBuilderNew regWithActive testUserTy)).preds
      = [Pred.eq "active" (Val.vBool true)] := by
  constructor
  · rfl
  · rfl

/-- C9 helper: `getGlobalScopes`, `applyGlobalScopes` and
`removeGlobalScope` only consult `modelClass.name`, never the class
identity. -/
theorem scopeManager_uses_name_only (reg : ScopeRegistry) (c1 c2 : EntityType)
    (hname : c1.name = c2.name) :
    getGlobalScopes reg c1 = getGlobalScopes reg c2 ∧
    (∀ excl q, applyGlobalScopes reg c1 excl q = applyGlobalScopes reg c2 excl q) ∧
    (∀ key, removeGlobalScope reg c1 key = removeGlobalScope reg c2 key) := by
  refine ⟨?_, ?_, ?_⟩
  · unfold getGlobalScopes
    rw [hname]
  · intro excl q
    unfold applyGlobalScopes
    rw [hname]
  · intro key
    unfold removeGlobalScope
    rw [hname]

/-- C9 — the global-scope registry is keyed by the model class's string
`name`, not by class identity: for distinct entity-type classes `c1 ≠ c2`
with equal constructor names, a scope added through `c1` is visible to
`getGlobalScopes`/`applyGlobalScopes` of `c2` (the two classes see
identical scope maps and the added scope is retrievable through `c2`), and
removing it through `c2` succeeds and removes it for `c1` as well. -/
theorem globalScope_registry_keyed_by_class_name
    (reg : ScopeRegistry) (c1 c2 : EntityType) (scope : GlobalScopeDecl)
    (nameOpt : Option String) (nowMs : Nat)
    (hname : c1.name = c2.name) (hne : c1 ≠ c2) :
    getGlobalScopes (addGlobalScope reg c1 scope nameOpt nowMs) c2 =
      getGlobalScopes (addGlobalScope reg c1 scope nameOpt nowMs) c1 ∧
    (∀ excl q,
      applyGlobalScopes (addGlobalScope reg c1 scope nameOpt nowMs) c2 excl q =
        applyGlobalScopes (addGlobalScope reg c1 scope nameOpt nowMs) c1 excl q) ∧
    mapGet? (getGlobalScopes (addGlobalScope reg c1 scope nameOpt nowMs) c2)
      (scopeKeyOf scope nameOpt nowMs) = some scope ∧
    (removeGlobalScope (addGlobalScope reg c1 scope nameOpt nowMs) c2
      (scopeKeyOf scope nameOpt nowMs)).1 = true ∧
    mapGet?
      (getGlobalScopes
        (removeGlobalScope (addGlobalScope reg c1 scope nameOpt nowMs) c2
          (scopeKeyOf scope nameOpt nowMs)).2 c1)
      (scopeKeyOf scope nameOpt nowMs) = none := by
  obtain ⟨hview, happly, hremove⟩ :=
    scopeManager_uses_name_only (addGlobalScope reg c1 scope nameOpt nowMs) c1 c2 hname
  have hreg' : (addGlobalScope reg c1 scope nameOpt nowMs).globalScopes =
      mapSet reg.globalScopes c1.name
        (mapSet ((mapGet? reg.globalScopes c1.name).getD [])
          (scopeKeyOf scope nameOpt nowMs) scope) := rfl
  have hget1 : getGlobalScopes (addGlobalScope reg c1 scope nameOpt nowMs) c1 =
      mapSet ((mapGet? reg.globalScopes c1.name).getD [])
        (scopeKeyOf scope nameOpt nowMs) scope := by
    unfold getGlobalScopes
    rw [hreg', mapGet?_mapSet_self]
    rfl
  refine ⟨hview.symm, fun excl q => (happly excl q).symm, ?_, ?_, ?_⟩
  · rw [← hview, hget1]
    exact mapGet?_mapSet_self _ _ _
  · rw [← hremove]
    unfold removeGlobalScope
    rw [hreg', mapGet?_mapSet_self]
    exact mapSet_any_self _ _ _
  · rw [← hremove]
    unfold removeGlobalScope
    rw [hreg', mapGet?_mapSet_self]
    unfold getGlobalScopes
    simp only
    rw [hname, mapGet?_mapSet_self]
    exact mapGet?_mapDelete_self _ _

/-- C9 witness: two distinct classes both named `"User"`; a scope added via
the first is visible and removable via the second. -/
theorem globalScope_registry_keyed_by_class_name_witness :
    (getGlobalScopes
        (addGlobalScope ⟨[]⟩ ⟨1, "User", "users", "id", true, false,
          "created_at", "updated_at", "deleted_at"⟩ (.obj 7 [Pred.isNull "x"]) none 0)
        ⟨2, "User", "other", "id", true, false, "created_at", "updated_at", "deleted_at"⟩ =
      getGlobalScopes
        (addGlobalScope ⟨[]⟩ ⟨1, "User", "users", "id", true, false,
          "created_at", "updated_at", "deleted_at"⟩ (.obj 7 [Pred.isNull "x"]) none 0)
        ⟨1, "User", "users", "id", true, false, "created_at", "updated_at", "deleted_at"⟩) ∧
    mapGet?
      (getGlobalScopes
        (addGlobalScope ⟨[]⟩ ⟨1, "User", "users", "id", true, false,
          "created_at", "updated_at", "deleted_at"⟩ (.obj 7 [Pred.isNull "x"]) none 0)
        ⟨2, "User", "other", "id", true, false, "created_at", "updated_at", "deleted_at"⟩)
      (.ctor 7) = some (.obj 7 [Pred.isNull "x"]) ∧
    (removeGlobalScope
        (addGlobalScope ⟨[]⟩ ⟨1, "User", "users", "id", true, false,
          "created_at", "updated_at", "deleted_at"⟩ (.obj 7 [Pred.isNull "x"]) none 0)
        ⟨2, "User", "other", "id", true, false, "created_at", "updated_at", "deleted_at"⟩
        (.ctor 7)).1 = true := by
  have h := globalScope_registry_keyed_by_class_name ⟨[]⟩
    ⟨1, "User", "users", "id", true, false, "created_at", "updated_at", "deleted_at"⟩
    ⟨2, "User", "other", "id", true, false, "created_at", "updated_at", "deleted_at"⟩
    (.obj 7 [Pred.isNull "x"]) none 0 rfl (by decide)
  exact ⟨h.1, h.2.2.1, h.2.2.2.1⟩

end Teloquent


namespace Teloquent

/-! ## Model — Active Record lifecycle (src/unnamed Model class)

A model instance owns its attribute map, the `original` snapshot of the
attributes as last persisted, and the `exists` flag distinguishing a
transient instance from a persisted one (constructor + fields, Model
lines 33-45). -/

structure MInst where
  attributes : Row := []
  original : Row := []
  existsFlag : Bool := false
  /-- The side-channel "pivot" bag written by
  `BelongsToMany.matchResults` (`(result as any).pivot = ...`). -/
  pivot : Row := []
deriving DecidableEq, Repr

/-- `Model.getAttribute(key)` with the default `null`. -/
def MInst.getAttribute (m : MInst) (k : String) : Val :=
  getAttr m.attributes k

/-- `Model.getKey()`: the primary-key attribute (never `undefined` — an
absent key reads as `null`). -/
def MInst.getKey (et : EntityType) (m : MInst) : Val :=
  m.getAttribute et.primaryKey

/-- `QueryBuilder.hydrate` (src/src/QueryBuilder.ts:57-64):
`new this.model(result)` fills the attributes from the row (insertion
order; a later duplicate key overwrites) and `setExists(true)`.  The
`original` snapshot is NOT taken on hydration. -/
def hydrate (r : Row) : MInst :=
  { attributes := objFromList r, original := [], existsFlag := true }

def hydrateMany (rows : List Row) : List MInst :=
  rows.map hydrate

/-- The timestamp-stamping step of `Model.save` (Model lines 329-341):
on the copied attribute map, stamp `CREATED_AT` when the instance is new
and the value is falsy, then stamp `UPDATED_AT` when the column name is
truthy (non-empty) and the value is falsy.  Stamping happens ONLY when the
current value is falsy (`!attributes[updatedAt]`). -/
def stampedAttrs (et : EntityType) (m : MInst) (nowMs : Int) : Row :=
  if et.usesTimestamps then
    let a1 := if !m.existsFlag && !(getAttr m.attributes et.CREATED_AT).truthy then
        setAttr m.attributes et.CREATED_AT (.vInt nowMs)
      else m.attributes
    if et.UPDATED_AT ≠ "" && !(getAttr a1 et.UPDATED_AT).truthy then
      setAttr a1 et.UPDATED_AT (.vInt nowMs)
    else a1
  else m.attributes

/-- The specification `query().where(primaryKey, id)` used by the update
branch of `save` and by `delete`/`restore`: the base query of the type
(including the soft-delete filter) plus the primary-key equality. -/
def pkQuery (et : EntityType) (id : Val) : QuerySpec :=
  let q := getBaseQuery et
  { q with preds := q.preds ++ [Pred.eq et.primaryKey id] }

/-- `Model.save` (Model lines 323-362).  `nowMs` models `new Date()`;
`genKey` models the generated key returned by the insert
(`const [id] = await query.insert(attributes)` — `none` when the store
returns none).  The stamped attribute map is written to the store, but the
instance's own attributes are NOT updated with the stamps (the stamps land
on the copy `const attributes = this.getAttributes()`).  Afterwards
`this.original = {...this.attributes}`. -/
def modelSave (db : DB) (et : EntityType) (m : MInst) (nowMs : Int)
    (genKey : Option Val) : DB × MInst :=
  let attributes := stampedAttrs et m nowMs
  if m.existsFlag then
    -- update path: this.getKey() is never undefined (absent reads null),
    -- so the update is always issued, constrained to primaryKey = id
    let id := m.getKey et
    let db' := dbUpdate db (pkQuery et id) attributes
    (db', { m with original := m.attributes })
  else
    let db' := dbInsert db et.tableName [attributes]
    match genKey with
    | some id =>
      let m' := { m with
        attributes := setAttr m.attributes et.primaryKey id,
        existsFlag := true }
      (db', { m' with original := m'.attributes })
    | none => (db', { m with original := m.attributes })

/-- `Model.delete` (Model lines 376-396): `false` for a transient
instance; soft delete sets `DELETED_AT = now` on the matching row via an
update, hard delete removes the row.  `this.setExists(false)` runs
unconditionally after EITHER branch (line 394). -/
def modelDelete (db : DB) (et : EntityType) (m : MInst) (nowMs : Int) :
    DB × MInst × Bool :=
  if !m.existsFlag then (db, m, false)
  else
    let id := m.getKey et
    if et.usesSoftDeletes then
      let db' := dbUpdate db (pkQuery et id) [(et.DELETED_AT, .vInt nowMs)]
      (db', { m with existsFlag := false }, true)
    else
      let db' := dbDelete db (pkQuery et id)
      (db', { m with existsFlag := false }, true)

/-- `Model.restore` (Model lines 401-414): `false` when the instance does
not exist or the type does not use soft deletes; otherwise update the
matching row's `DELETED_AT` to null (through the base query, which itself
filters `DELETED_AT IS NULL`) and clear the attribute on the instance. -/
def modelRestore (db : DB) (et : EntityType) (m : MInst) :
    DB × MInst × Bool :=
  if !m.existsFlag || !et.usesSoftDeletes then (db, m, false)
  else
    let id := m.getKey et
    let db' := dbUpdate db (pkQuery et id) [(et.DELETED_AT, Val.vNull)]
    (db', { m with attributes := setAttr m.attributes et.DELETED_AT Val.vNull }, true)

end Teloquent

namespace Teloquent

/-! ## C3 / C4 — soft-delete lifecycle at a concrete soft-deletable type -/

/-- A soft-deletable entity type (`@SoftDeletes()` model). -/
def postTy : EntityType :=
  { classId := 3, name := "Post", tableName := "posts", usesSoftDeletes := true }

/-- One live row. -/
def postRow : Row :=
  [("id", Val.vInt 1), ("title", Val.vStr "A"), ("deleted_at", Val.vNull)]

def postDb : DB := ⟨[("posts", [postRow])]⟩

/-- The persisted instance for `postRow`. -/
def postInst : MInst :=
  { attributes := postRow, original := postRow, existsFlag := true }

/-- C3 — the claim fails on the code: `delete()` on a persisted instance
of a soft-deletable type does set the soft-delete timestamp on the row,
leaves the row in place and returns true — but it does NOT leave the
instance's `exists` flag true: `setExists(false)` runs unconditionally
after both branches, so `exists` is false after a soft delete as well.
The transient no-op part of the claim does hold. -/
theorem softDelete_clears_exists_flag :
    (modelDelete postDb postTy postInst 100).2.2 = true ∧
    (modelDelete postDb postTy postInst 100).1.rowsOf "posts" =
      [[("id", Val.vInt 1), ("title", Val.vStr "A"), ("deleted_at", Val.vInt 100)]] ∧
    (modelDelete postDb postTy postInst 100).2.1.existsFlag = false ∧
    modelDelete postDb postTy { postInst with existsFlag := false } 100 =
      (postDb, { postInst with existsFlag := false }, false) := by
  refine ⟨rfl, by decide, rfl, by decide⟩

/-- Modelled from the spec: the include-deleted visibility mode
(`withTrashed` in the documentation and examples; the mode itself is
absent from the `QueryBuilder` in src) widens the base query by omitting
the soft-delete filter. -/
def includeDeletedQuery (et : EntityType) : QuerySpec :=
  { table := et.tableName, preds := [] }

/-- C4 — the round trip breaks at `restore()`: after `delete()` the row is
indeed absent from a default `get()` and present under the include-deleted
mode with its timestamp set, but `restore()` on the same instance returns
false and changes nothing — `delete()` already cleared the `exists` flag
that `restore()` requires.  Moreover, even on an instance whose `exists`
flag is forced back to true, `restore()` returns true and clears the
attribute on the instance, yet the row stays soft-deleted: the restoring
update runs through the base query, whose `deletedAt IS NULL` filter the
soft-deleted row cannot satisfy.  The row never reappears under the
default visibility mode. -/
theorem softDelete_restore_round_trip_fails :
    -- delete(): row absent from default get(), present with timestamp
    -- under the include-deleted mode (these parts of the claim hold)
    runQuery (modelDelete postDb postTy postInst 100).1 (getBaseQuery postTy) = [] ∧
    runQuery (modelDelete postDb postTy postInst 100).1 (includeDeletedQuery postTy) =
      [[("id", Val.vInt 1), ("title", Val.vStr "A"), ("deleted_at", Val.vInt 100)]] ∧
    -- restore() on the instance returned by delete(): returns false, db untouched
    (modelRestore (modelDelete postDb postTy postInst 100).1 postTy
        (modelDelete postDb postTy postInst 100).2.1).2.2 = false ∧
    (modelRestore (modelDelete postDb postTy postInst 100).1 postTy
        (modelDelete postDb postTy postInst 100).2.1).1 =
      (modelDelete postDb postTy postInst 100).1 ∧
    -- even with exists forced true, the row stays hidden from default get()
    (modelRestore (modelDelete postDb postTy postInst 100).1 postTy
        { (modelDelete postDb postTy postInst 100).2.1 with existsFlag := true }).2.2 = true ∧
    runQuery
      (modelRestore (modelDelete postDb postTy postInst 100).1 postTy
        { (modelDelete postDb postTy postInst 100).2.1 with existsFlag := true }).1
      (getBaseQuery postTy) = [] := by
  refine ⟨by decide, by decide, by decide, by decide, by decide, by decide⟩

end Teloquent

namespace Teloquent

/-! ## C7 — `save` on a persisted instance with timestamps enabled -/

/-- A timestamped entity type (`usesTimestamps = true` is the default). -/
def userTy : EntityType :=
  { classId := 4, name := "User", tableName := "users" }

def userRow : Row := [("id", Val.vInt 1), ("updated_at", Val.vInt 5)]

def userDb : DB := ⟨[("users", [userRow])]⟩

def userInst : MInst :=
  { attributes := userRow, original := userRow, existsFlag := true }

/-- C7 counterexample — the claim that `save()` "always restamps the
updated-timestamp column to the current time — including when the
attribute already holds a value" is false: the stamping is guarded by
`!attributes[updatedAt]`, so an already-set (truthy) value is left
untouched.  Saving at time 9 an instance whose `updated_at` is 5 writes 5,
not 9, and the row keeps `updated_at = 5`. -/
theorem save_always_restamps_counterexample :
    (modelSave userDb userTy userInst 9 none).1.rowsOf "users" = [userRow] ∧
    getAttr (stampedAttrs userTy userInst 9) "updated_at" = Val.vInt 5 ∧
    ¬getAttr (stampedAttrs userTy userInst 9) "updated_at" = Val.vInt 9 := by
  refine ⟨by decide, by decide, by decide⟩

theorem zip_map_self (l : List α) (g : α → α) :
    l.zip (l.map g) = l.map (fun a => (a, g a)) := by
  induction l with
  | nil => rfl
  | cons a t ih => simp [ih]

/-- C7 as amended — for every persisted instance of a timestamped type,
`save()` stamps the updated-timestamp column to the current time ONLY when
the attribute's current value is falsy (absent/null/0/empty), leaving an
already-set value unchanged; it issues an update constrained to
`primaryKey = current key` (rows not matching the key equality are
untouched); and afterwards the original snapshot equals the attributes
map. -/
theorem save_restamps_only_when_absent (db : DB) (et : EntityType) (m : MInst)
    (nowMs : Int) (genKey : Option Val)
    (hts : et.usesTimestamps = true) (hex : m.existsFlag = true) :
    ((getAttr m.attributes et.UPDATED_AT).truthy = true →
      stampedAttrs et m nowMs = m.attributes) ∧
    (et.UPDATED_AT ≠ "" → (getAttr m.attributes et.UPDATED_AT).truthy = false →
      stampedAttrs et m nowMs = setAttr m.attributes et.UPDATED_AT (.vInt nowMs)) ∧
    (modelSave db et m nowMs genKey).1 =
      dbUpdate db (pkQuery et (m.getKey et)) (stampedAttrs et m nowMs) ∧
    (∀ pr ∈ (db.rowsOf et.tableName).zip
        ((modelSave db et m nowMs genKey).1.rowsOf et.tableName),
      rowMatches et.tableName pr.1 (Pred.eq et.primaryKey (m.getKey et)) = false →
      pr.2 = pr.1) ∧
    (modelSave db et m nowMs genKey).2.original =
      (modelSave db et m nowMs genKey).2.attributes := by
  have hsave : modelSave db et m nowMs genKey =
      (dbUpdate db (pkQuery et (m.getKey et)) (stampedAttrs et m nowMs),
        { m with original := m.attributes }) := by
    unfold modelSave
    rw [hex]
    simp
  refine ⟨?_, ?_, ?_, ?_, ?_⟩
  · intro htruthy
    unfold stampedAttrs
    rw [hts, hex]
    simp [htruthy]
  · intro hnm hfalsy
    unfold stampedAttrs
    rw [hts, hex]
    simp [hnm, hfalsy]
  · rw [hsave]
  · intro pr hpr hmatch
    rw [hsave] at hpr
    have hrows : (dbUpdate db (pkQuery et (m.getKey et)) (stampedAttrs et m nowMs)).rowsOf
        et.tableName =
        (db.rowsOf et.tableName).map (fun r =>
          if rowMatchesAll (pkQuery et (m.getKey et)) r then
            (stampedAttrs et m nowMs).foldl (fun r' p => setAttr r' p.1 p.2) r
          else r) := by
      unfold dbUpdate
      exact DB.rowsOf_setTable_self db et.tableName _
    rw [hrows, zip_map_self] at hpr
    obtain ⟨a, ha, hpr'⟩ := List.mem_map.mp hpr
    have hall : rowMatchesAll (pkQuery et (m.getKey et)) a = false := by
      have hpr1 : pr.1 = a := by rw [← hpr']
      rw [hpr1] at hmatch
      unfold rowMatchesAll pkQuery
      simp only [List.all_append]
      have htbl : ({ getBaseQuery et with
          preds := (getBaseQuery et).preds ++ [Pred.eq et.primaryKey (m.getKey et)] }
            : QuerySpec).table = et.tableName := rfl
      rw [htbl]
      simp [hmatch]
    rw [← hpr']
    simp [hall]
  · rw [hsave]

/-- C7 amended witness: a persisted user with `updated_at` already 5 —
saving at time 9 keeps 5 and leaves the instance's snapshot equal to its
attributes; a second instance with `updated_at` null gets stamped to 9. -/
theorem save_restamps_only_when_absent_witness :
    stampedAttrs userTy userInst 9 = userInst.attributes ∧
    stampedAttrs userTy
        { attributes := [("id", Val.vInt 1), ("updated_at", Val.vNull)],
          original := [], existsFlag := true } 9 =
      setAttr [("id", Val.vInt 1), ("updated_at", Val.vNull)] "updated_at" (.vInt 9) ∧
    (modelSave userDb userTy userInst 9 none).2.original =
      (modelSave userDb userTy userInst 9 none).2.attributes := by
  have h1 := save_restamps_only_when_absent userDb userTy userInst 9 none rfl rfl
  have h2 := save_restamps_only_when_absent userDb userTy
    { attributes := [("id", Val.vInt 1), ("updated_at", Val.vNull)],
      original := [], existsFlag := true } 9 none rfl rfl
  exact ⟨h1.1 (by decide), h2.2.1 (by decide) (by decide), h1.2.2.2.2⟩

end Teloquent

namespace Teloquent

/-! ## Further map lemmas used by the relation-matching proofs -/

theorem find?_mapReplace_ne [DecidableEq κ] (m : List (κ × β)) (k k' : κ) (v : β)
    (h : k' ≠ k) :
    (m.map (fun p => if p.1 = k then (k, v) else p)).find? (fun p => p.1 = k') =
      m.find? (fun p => p.1 = k') := by
  induction m with
  | nil => rfl
  | cons a t ihm =>
    by_cases ha : a.1 = k
    · rw [List.map_cons, if_pos ha]
      rw [List.find?_cons_of_neg _ (by simpa using h.symm),
        List.find?_cons_of_neg _
          (by simpa using (fun hc => h (hc.symm.trans ha) : ¬(a.1 = k')))]
      exact ihm
    · rw [List.map_cons, if_neg ha]
      by_cases ha' : a.1 = k'
      · rw [List.find?_cons_of_pos _ (by simpa using ha'),
          List.find?_cons_of_pos _ (by simpa using ha')]
      · rw [List.find?_cons_of_neg _ (by simpa using ha'),
          List.find?_cons_of_neg _ (by simpa using ha')]
        exact ihm

theorem mapGet?_mapSet_ne [DecidableEq κ] (m : List (κ × β)) (k k' : κ) (v : β)
    (h : k' ≠ k) :
    mapGet? (mapSet m k v) k' = mapGet? m k' := by
  unfold mapSet mapGet?
  by_cases hany : m.any (fun p => p.1 = k)
  · rw [if_pos hany, find?_mapReplace_ne m k k' v h]
  · rw [if_neg hany, List.find?_append]
    have hnone : List.find? (fun p => p.1 = k') [(k, v)] = none := by
      rw [List.find?_cons_of_neg _ (by simpa using fun hc => h hc.symm)]
      rfl
    rw [hnone, Option.or_none]

theorem getAttr_eq_mapGet? (r : Row) (k : String) :
    getAttr r k = (mapGet? r k).getD .vNull := by
  unfold getAttr mapGet?
  cases h : r.find? (fun p => p.1 = k) <;> simp [h]

theorem getAttr_setAttr_self (r : Row) (k : String) (v : Val) :
    getAttr (setAttr r k v) k = v := by
  have hs : setAttr r k v = mapSet r k v := rfl
  rw [hs, getAttr_eq_mapGet?, mapGet?_mapSet_self]
  rfl

theorem getAttr_setAttr_ne (r : Row) (k k' : String) (v : Val) (h : k' ≠ k) :
    getAttr (setAttr r k v) k' = getAttr r k' := by
  have hs : setAttr r k v = mapSet r k v := rfl
  rw [hs, getAttr_eq_mapGet?, mapGet?_mapSet_ne r k k' v h, ← getAttr_eq_mapGet?]

theorem getAttr_foldl_setAttr_of_notin (l : List (String × Val)) (r : Row) (k : String)
    (h : ∀ p ∈ l, p.1 ≠ k) :
    getAttr (l.foldl (fun acc p => setAttr acc p.1 p.2) r) k = getAttr r k := by
  induction l generalizing r with
  | nil => rfl
  | cons e t iht =>
    rw [List.foldl_cons, iht _ (fun p hp => h p (List.mem_cons_of_mem e hp)),
      getAttr_setAttr_ne _ _ _ _ (fun hc => h e (List.mem_cons_self e t) hc.symm)]

end Teloquent

namespace Teloquent

/-! ## Relation engine (src/src/relations, src/unnamed HasMany/BelongsTo)

A relation value as stored in an entity's relation cache: a single related
entity or null (HasOne / BelongsTo), or an array of related entities
(HasMany / BelongsToMany). -/

inductive RelVal where
  | one (m : Option MInst) : RelVal
  | many (ms : List MInst) : RelVal
deriving DecidableEq, Repr

/-! ### HasMany (src/unnamed HasMany, lines 29-116) -/

/-- One iteration of the dictionary phase of `HasMany.matchResults`
(lines 97-105): `if (!dictionary[key]) dictionary[key] = [];
dictionary[key].push(result)`, skipped for null/undefined keys. -/
def hasManyDictStep (fk : String) (dict : List (String × List MInst)) (r : MInst) :
    List (String × List MInst) :=
  let key := getAttr r.attributes fk
  if key ≠ .vNull then
    match mapGet? dict key.valKey with
    | some grp => mapSet dict key.valKey (grp ++ [r])
    | none => mapSet dict key.valKey [r]
  else dict

/-- The dictionary phase of `HasMany.matchResults` (lines 94-105): group
the fetched results by their foreign-key value, skipping null/undefined
keys.  JS object keys are strings (`valKey`). -/
def hasManyDict (fk : String) (results : List MInst) : List (String × List MInst) :=
  results.foldl (hasManyDictStep fk) []

/-- The assignment phase of `HasMany.matchResults` (lines 107-115): a
parent receives its dictionary group, or the empty array when its local
key is null/undefined or has no group. -/
def hasManyAssign (dict : List (String × List MInst)) (lk : String) (m : MInst) : RelVal :=
  let key := getAttr m.attributes lk
  if key ≠ .vNull then
    match mapGet? dict key.valKey with
    | some grp => .many grp
    | none => .many []
  else .many []

/-- `HasMany.matchResults(models, results, relation)`: every parent in
`models` gets a value assigned into its relation cache. -/
def matchResultsHasMany (fk lk : String) (models results : List MInst) :
    List (MInst × RelVal) :=
  let dict := hasManyDict fk results
  models.map (fun m => (m, hasManyAssign dict lk m))

/-- The eager-loading pipeline for a has-many relation
(`QueryBuilder.loadRelations`, src/src/QueryBuilder.ts:78-97, plus
`Relation.eagerLoadRelation`).  `loadRelations` calls the relation method
ON THE FIRST MODEL; the `HasMany` constructor immediately runs
`addConstraints()`, adding `where(foreignKey, firstModel[localKey])` to
the fresh related-type query; `eagerLoadRelation` then adds
`whereIn(foreignKey, keys)` over all parents and matches the fetched
rows. -/
def eagerLoadHasMany (db : DB) (relatedEt : EntityType) (fk lk : String)
    (models : List MInst) : List (MInst × RelVal) :=
  match models with
  | [] => []
  | firstModel :: _ =>
    let q0 := getBaseQuery relatedEt
    let q1 := { q0 with
      preds := q0.preds ++ [Pred.eq fk (getAttr firstModel.attributes lk)] }
    let keys := (models.map (fun m => getAttr m.attributes lk)).filter
      (fun k => k ≠ .vNull)
    let q2 := { q1 with preds := q1.preds ++ [Pred.inList fk keys] }
    let results := hydrateMany (runQuery db q2)
    matchResultsHasMany fk lk models results

/-- The query a lazily-resolved relation executes: the related type's base
query with the key constraint added TWICE — the relation constructor runs
`addConstraints()` and `Relation.getResults` (Relation.ts:65-71) runs it
again before executing. -/
def lazyRelQuery (relatedEt : EntityType) (col : String) (v : Val) : QuerySpec :=
  { table := (getBaseQuery relatedEt).table,
    preds := (getBaseQuery relatedEt).preds ++ [Pred.eq col v, Pred.eq col v] }

/-- Lazy resolution of a has-many relation (`Model.__get` → relation
construction → `Relation.getResults`): the constrained query is executed
and the Collection returned as an array (`results.all()`). -/
def lazyHasMany (db : DB) (relatedEt : EntityType) (fk lk : String) (m : MInst) : RelVal :=
  .many (hydrateMany (runQuery db (lazyRelQuery relatedEt fk (getAttr m.attributes lk))))

/-! ### HasOne (src/src/relations/HasOne.ts) -/

/-- One iteration of the dictionary phase of `HasOne.matchResults`
(lines 80-85): `dictionary[key] = result`, skipped for null/undefined
keys. -/
def hasOneDictStep (fk : String) (dict : List (String × MInst)) (r : MInst) :
    List (String × MInst) :=
  let key := getAttr r.attributes fk
  if key ≠ .vNull then mapSet dict key.valKey r else dict

/-- Dictionary phase of `HasOne.matchResults` (lines 77-85): key → single
result, last write wins on duplicate keys. -/
def hasOneDict (fk : String) (results : List MInst) : List (String × MInst) :=
  results.foldl (hasOneDictStep fk) []

/-- Assignment phase of `HasOne.matchResults` (lines 87-95): the matched
entity, or null when the parent's key is null or unmatched. -/
def hasOneAssign (dict : List (String × MInst)) (lk : String) (m : MInst) : RelVal :=
  let key := getAttr m.attributes lk
  if key ≠ .vNull then
    match mapGet? dict key.valKey with
    | some r => .one (some r)
    | none => .one none
  else .one none

def matchResultsHasOne (fk lk : String) (models results : List MInst) :
    List (MInst × RelVal) :=
  let dict := hasOneDict fk results
  models.map (fun m => (m, hasOneAssign dict lk m))

/-- Lazy resolution of a has-one relation: constraints as for has-many
(`HasOne.addConstraints` has no null guard), then `query.first()`
(HasOne.getResultsQuery, lines 149-151). -/
def lazyHasOne (db : DB) (relatedEt : EntityType) (fk lk : String) (m : MInst) : RelVal :=
  .one ((runQuery db (lazyRelQuery relatedEt fk (getAttr m.attributes lk))).head?.map
    hydrate)

/-! ### BelongsTo (src/unnamed BelongsTo, lines 220-413) -/

/-- `BelongsTo.matchResults` (lines 289-309): dictionary keyed by the
owner key of the results (last write wins), parents matched through their
foreign-key value; unmatched or null-keyed parents get null.  The shape is
that of `HasOne.matchResults` with the roles of the columns swapped. -/
def matchResultsBelongsTo (ownerKey fk : String) (models results : List MInst) :
    List (MInst × RelVal) :=
  let dict := hasOneDict ownerKey results
  models.map (fun m => (m, hasOneAssign dict fk m))

/-- Lazy resolution of a belongs-to relation: `BelongsTo.addConstraints`
(lines 259-267) adds `where(ownerKey, foreignKeyValue)` ONLY when the
child's foreign-key value is neither undefined nor null — otherwise the
query stays unconstrained — then `query.first()` (lines 365-367). -/
def lazyBelongsTo (db : DB) (relatedEt : EntityType) (fk ownerKey : String)
    (m : MInst) : RelVal :=
  .one ((runQuery db
      (if getAttr m.attributes fk ≠ .vNull then
        lazyRelQuery relatedEt ownerKey (getAttr m.attributes fk)
      else getBaseQuery relatedEt)).head?.map hydrate)

end Teloquent

namespace Teloquent

/-! ### BelongsToMany (src/src/relations/BelongsToMany.ts) -/

/-- The pivot-attribute extraction of `BelongsToMany.matchResults`
(lines 156-166): collect the attributes whose key starts with `pivot_`,
under the key with that prefix removed (`key.replace('pivot_', '')`
removes the first occurrence, i.e. the prefix). -/
def pivotAttrsOf (r : MInst) : Row :=
  r.attributes.foldl
    (fun acc p =>
      if "pivot_".data.isPrefixOf p.1.data then
        setAttr acc { data := p.1.data.drop "pivot_".data.length } p.2
      else acc)
    []

/-- Pass 1 of `BelongsToMany.matchResults` (lines 152-176): the pivot-data
dictionary keyed by `"<fpv>_<rpv>"`, for results whose extracted pivot
attributes contain BOTH pivot keys (the source checks `!== undefined`
only, so present-but-null values pass). -/
def btmPivotData (fpk rpk : String) (results : List MInst) : List (String × Row) :=
  results.foldl
    (fun pd r =>
      let pivotAttributes := pivotAttrsOf r
      match mapGet? pivotAttributes fpk, mapGet? pivotAttributes rpk with
      | some fpv, some rpv =>
        mapSet pd (fpv.valKey ++ "_" ++ rpv.valKey) pivotAttributes
      | _, _ => pd)
    []

/-- Pass 2 of `BelongsToMany.matchResults` (lines 178-207): group results
by the `pivot_<foreignPivotKey>` attribute (null/undefined keys skipped);
each grouped result gets its pivot bag set from the pivot-data dictionary
(empty when absent) when its own related-key value is non-null. -/
def btmDictStep (fpk relatedKey : String) (pivotData : List (String × Row))
    (dict : List (String × List MInst)) (r : MInst) : List (String × List MInst) :=
  let foreignPivotValue := getAttr r.attributes ("pivot_" ++ fpk)
  if foreignPivotValue ≠ .vNull then
    let relatedPivotValue := getAttr r.attributes relatedKey
    let r' := if relatedPivotValue ≠ .vNull then
        { r with pivot := (mapGet? pivotData
            (foreignPivotValue.valKey ++ "_" ++ relatedPivotValue.valKey)).getD [] }
      else r
    match mapGet? dict foreignPivotValue.valKey with
    | some grp => mapSet dict foreignPivotValue.valKey (grp ++ [r'])
    | none => mapSet dict foreignPivotValue.valKey [r']
  else dict

def btmDict (fpk relatedKey : String) (pivotData : List (String × Row))
    (results : List MInst) : List (String × List MInst) :=
  results.foldl (btmDictStep fpk relatedKey pivotData) []

/-- `BelongsToMany.matchResults` (lines 151-218): assignment phase as for
has-many, keyed by the parents' `parentKey` value (lines 209-217). -/
def matchResultsBtM (fpk rpk parentKey relatedKey : String)
    (models results : List MInst) : List (MInst × RelVal) :=
  let pivotData := btmPivotData fpk rpk results
  let dict := btmDict fpk relatedKey pivotData results
  models.map (fun m => (m, hasManyAssign dict parentKey m))

/-- Lazy resolution of a belongs-to-many relation.
`BelongsToMany.addConstraints` (lines 75-85) joins the related table with
the pivot table on `related.relatedKey = pivot.relatedPivotKey` and adds
`where(pivotTable.foreignPivotKey, parentKeyValue)` ONLY when the parent's
key is neither undefined nor null — otherwise neither the join nor the
filter is added and `getResults` returns the base query's rows.  The
select keeps `relatedTable.*` plus the requested pivot columns aliased
`pivot_<col>` (`setJoin`, lines 106-134); the `where` on the qualified
pivot column filters the joined pairs on the pivot side; the related
table's own base predicates (its soft-delete filter) apply to the related
side.  The duplicate `addConstraints` call from `getResults` re-adds the
same `where` (the join is guarded by `joinExists`), which does not change
the filtered set. -/
def btmJoinWhere (db : DB) (relatedEt : EntityType)
    (table fpk rpk relatedKey : String) (pivotColumns : List String)
    (pv : Val) : List Row :=
  (db.rowsOf relatedEt.tableName).flatMap (fun rr =>
    (db.rowsOf table).filterMap (fun pr =>
      if rowMatchesAll (getBaseQuery relatedEt) rr &&
          sqlEq (getAttr rr relatedKey) (getAttr pr rpk) &&
          sqlEq (getAttr pr fpk) pv then
        some (rr ++ pivotColumns.map (fun c => ("pivot_" ++ c, getAttr pr c)))
      else none))

def btmLazy (db : DB) (relatedEt : EntityType)
    (table fpk rpk parentKey relatedKey : String) (pivotColumns : List String)
    (m : MInst) : RelVal :=
  if getAttr m.attributes parentKey ≠ .vNull then
    .many (hydrateMany (btmJoinWhere db relatedEt table fpk rpk relatedKey
      pivotColumns (getAttr m.attributes parentKey)))
  else
    .many (hydrateMany (runQuery db (getBaseQuery relatedEt)))

/-! ### BelongsToMany pivot operations (lines 283-387) -/

/-- `formatAttachRecords` (lines 359-387) for an array of plain ids: no
records when the parent's key is null/undefined; otherwise one
`{ [fpk]: parentId, [rpk]: id, ...attributes }` per non-null id. -/
def formatAttachRecords (fpk rpk : String) (parentId : Val) (ids : List Val)
    (attributes : List (String × Val)) : List Row :=
  if parentId = .vNull then []
  else
    ids.filterMap (fun id =>
      if id ≠ .vNull then
        some (objFromList ([(fpk, parentId), (rpk, id)] ++ attributes))
      else none)

/-- `attach(ids, attributes?)` (lines 283-294): insert the formatted
records into the pivot table (no-op when there are none). -/
def btmAttach (pivot : List Row) (fpk rpk : String) (parentId : Val)
    (ids : List Val) (attributes : List (String × Val)) : List Row :=
  let records := formatAttachRecords fpk rpk parentId ids attributes
  if records.isEmpty then pivot else pivot ++ records

/-- `detach(ids)` (lines 300-313): delete the pivot rows with
`foreignPivotKey = parentId`, additionally restricted to
`relatedPivotKey IN ids` when ids are given (`null` = all rows for the
parent). -/
def btmDetach (pivot : List Row) (fpk rpk : String) (parentId : Val)
    (ids : Option (List Val)) : List Row :=
  pivot.filter (fun r =>
    !(sqlEq (getAttr r fpk) parentId &&
      (match ids with
        | none => true
        | some l => sqlIn (getAttr r rpk) l)))

/-- `sync(ids, attributes?)` (lines 320-331): detach ALL pivot rows of the
parent, then attach the given ids — `if (ids && (Array.isArray(ids) ?
ids.length > 0 : true))`: an array attaches only when non-empty. -/
def btmSync (pivot : List Row) (fpk rpk : String) (parentId : Val)
    (ids : List Val) (attributes : List (String × Val)) : List Row :=
  let p1 := btmDetach pivot fpk rpk parentId none
  if ids.isEmpty then p1
  else btmAttach p1 fpk rpk parentId ids attributes

end Teloquent

namespace Teloquent

/-! ## C1 — eager vs lazy at the spec's example dataset -/

def authorTy : EntityType :=
  { classId := 5, name := "Author", tableName := "authors" }

def bookTy : EntityType :=
  { classId := 6, name := "Book", tableName := "books" }

def author1Row : Row := [("id", Val.vInt 1)]
def author2Row : Row := [("id", Val.vInt 2)]
def bookARow : Row := [("id", Val.vInt 1), ("title", Val.vStr "A"), ("author_id", Val.vInt 1)]
def bookBRow : Row := [("id", Val.vInt 2), ("title", Val.vStr "B"), ("author_id", Val.vInt 1)]
def bookCRow : Row := [("id", Val.vInt 3), ("title", Val.vStr "C"), ("author_id", Val.vInt 2)]

def libraryDb : DB :=
  ⟨[("authors", [author1Row, author2Row]),
    ("books", [bookARow, bookBRow, bookCRow])]⟩

/-- C1 — the claim fails on the code: eager and lazy resolution disagree.
On the spec's own example (author 1 with books "A","B"; author 2 with book
"C"), `Author.query().with('books').get()` assigns author 2 the EMPTY
list, while lazily resolving `author2.books` yields `["C"]`.  Root cause:
`loadRelations` builds the relation from the FIRST model, whose `HasMany`
constructor has already pinned `where(author_id = 1)`; the eager
`whereIn(author_id, [1,2])` is added on top of that, so the batched fetch
returns only the first parent's rows and every other parent matches
nothing.  (Author 1 does receive its own two books — the claim holds only
for the first parent.) -/
theorem eager_loading_returns_only_first_parents_rows :
    eagerLoadHasMany libraryDb bookTy "author_id" "id"
        (hydrateMany [author1Row, author2Row]) =
      [(hydrate author1Row, .many [hydrate bookARow, hydrate bookBRow]),
        (hydrate author2Row, .many [])] ∧
    lazyHasMany libraryDb bookTy "author_id" "id" (hydrate author2Row) =
      .many [hydrate bookCRow] ∧
    ¬(RelVal.many [] = RelVal.many [hydrate bookCRow]) := by
  refine ⟨by decide, by decide, by decide⟩

end Teloquent

namespace Teloquent

/-! ## C8 — cardinality defaults of relation resolution -/

theorem mapGet?_hasManyDictStep_none (fk s : String)
    (dict : List (String × List MInst)) (r : MInst)
    (hr : getAttr r.attributes fk = .vNull ∨ (getAttr r.attributes fk).valKey ≠ s)
    (hd : mapGet? dict s = none) :
    mapGet? (hasManyDictStep fk dict r) s = none := by
  unfold hasManyDictStep
  by_cases hk : getAttr r.attributes fk = .vNull
  · simp [hk, hd]
  · have hne : (getAttr r.attributes fk).valKey ≠ s := hr.resolve_left hk
    rw [if_pos (by simpa using hk)]
    cases hm : mapGet? dict (getAttr r.attributes fk).valKey <;>
      simp only [hm] <;>
      exact (mapGet?_mapSet_ne _ _ _ _ (Ne.symm hne)).trans hd

theorem hasManyDict_absent (fk s : String) (results : List MInst)
    (h : ∀ r ∈ results, getAttr r.attributes fk = .vNull ∨
      (getAttr r.attributes fk).valKey ≠ s) :
    mapGet? (hasManyDict fk results) s = none := by
  unfold hasManyDict
  have aux : ∀ (l : List MInst) (dict : List (String × List MInst)),
      (∀ r ∈ l, getAttr r.attributes fk = .vNull ∨
        (getAttr r.attributes fk).valKey ≠ s) →
      mapGet? dict s = none →
      mapGet? (l.foldl (hasManyDictStep fk) dict) s = none := by
    intro l
    induction l with
    | nil => intro dict _ hd; exact hd
    | cons r t ih =>
      intro dict hl hd
      rw [List.foldl_cons]
      exact ih _ (fun x hx => hl x (List.mem_cons_of_mem r hx))
        (mapGet?_hasManyDictStep_none fk s dict r (hl r (List.mem_cons_self r t)) hd)
  exact aux results [] h rfl

theorem mapGet?_hasOneDictStep_none (fk s : String)
    (dict : List (String × MInst)) (r : MInst)
    (hr : getAttr r.attributes fk = .vNull ∨ (getAttr r.attributes fk).valKey ≠ s)
    (hd : mapGet? dict s = none) :
    mapGet? (hasOneDictStep fk dict r) s = none := by
  unfold hasOneDictStep
  by_cases hk : getAttr r.attributes fk = .vNull
  · simp [hk, hd]
  · have hne : (getAttr r.attributes fk).valKey ≠ s := hr.resolve_left hk
    rw [if_pos (by simpa using hk)]
    exact (mapGet?_mapSet_ne _ _ _ _ (Ne.symm hne)).trans hd

theorem hasOneDict_absent (fk s : String) (results : List MInst)
    (h : ∀ r ∈ results, getAttr r.attributes fk = .vNull ∨
      (getAttr r.attributes fk).valKey ≠ s) :
    mapGet? (hasOneDict fk results) s = none := by
  unfold hasOneDict
  have aux : ∀ (l : List MInst) (dict : List (String × MInst)),
      (∀ r ∈ l, getAttr r.attributes fk = .vNull ∨
        (getAttr r.attributes fk).valKey ≠ s) →
      mapGet? dict s = none →
      mapGet? (l.foldl (hasOneDictStep fk) dict) s = none := by
    intro l
    induction l with
    | nil => intro dict _ hd; exact hd
    | cons r t ih =>
      intro dict hl hd
      rw [List.foldl_cons]
      exact ih _ (fun x hx => hl x (List.mem_cons_of_mem r hx))
        (mapGet?_hasOneDictStep_none fk s dict r (hl r (List.mem_cons_self r t)) hd)
  exact aux results [] h rfl

theorem mapGet?_btmDictStep_none (fpk relatedKey s : String)
    (pivotData : List (String × Row)) (dict : List (String × List MInst)) (r : MInst)
    (hr : getAttr r.attributes ("pivot_" ++ fpk) = .vNull ∨
      (getAttr r.attributes ("pivot_" ++ fpk)).valKey ≠ s)
    (hd : mapGet? dict s = none) :
    mapGet? (btmDictStep fpk relatedKey pivotData dict r) s = none := by
  unfold btmDictStep
  by_cases hk : getAttr r.attributes ("pivot_" ++ fpk) = .vNull
  · simp [hk, hd]
  · have hne : (getAttr r.attributes ("pivot_" ++ fpk)).valKey ≠ s := hr.resolve_left hk
    rw [if_pos (by simpa using hk)]
    cases hm : mapGet? dict (getAttr r.attributes ("pivot_" ++ fpk)).valKey <;>
      simp only [hm] <;>
      exact (mapGet?_mapSet_ne _ _ _ _ (Ne.symm hne)).trans hd

theorem btmDict_absent (fpk relatedKey s : String) (pivotData : List (String × Row))
    (results : List MInst)
    (h : ∀ r ∈ results, getAttr r.attributes ("pivot_" ++ fpk) = .vNull ∨
      (getAttr r.attributes ("pivot_" ++ fpk)).valKey ≠ s) :
    mapGet? (btmDict fpk relatedKey pivotData results) s = none := by
  unfold btmDict
  have aux : ∀ (l : List MInst) (dict : List (String × List MInst)),
      (∀ r ∈ l, getAttr r.attributes ("pivot_" ++ fpk) = .vNull ∨
        (getAttr r.attributes ("pivot_" ++ fpk)).valKey ≠ s) →
      mapGet? dict s = none →
      mapGet? (l.foldl (btmDictStep fpk relatedKey pivotData) dict) s = none := by
    intro l
    induction l with
    | nil => intro dict _ hd; exact hd
    | cons r t ih =>
      intro dict hl hd
      rw [List.foldl_cons]
      exact ih _ (fun x hx => hl x (List.mem_cons_of_mem r hx))
        (mapGet?_btmDictStep_none fpk relatedKey s pivotData dict r
          (hl r (List.mem_cons_self r t)) hd)
  exact aux results [] h rfl

theorem hasManyAssign_of_absent (dict : List (String × List MInst)) (lk : String)
    (m : MInst) (hd : mapGet? dict (getAttr m.attributes lk).valKey = none) :
    hasManyAssign dict lk m = .many [] := by
  unfold hasManyAssign
  by_cases hk : getAttr m.attributes lk = .vNull
  · simp [hk]
  · simp [hk, hd]

theorem hasOneAssign_of_absent (dict : List (String × MInst)) (lk : String)
    (m : MInst) (hd : mapGet? dict (getAttr m.attributes lk).valKey = none) :
    hasOneAssign dict lk m = .one none := by
  unfold hasOneAssign
  by_cases hk : getAttr m.attributes lk = .vNull
  · simp [hk]
  · simp [hk, hd]

end Teloquent

namespace Teloquent

theorem runQuery_eq_nil (db : DB) (q : QuerySpec)
    (h : ∀ r ∈ db.rowsOf q.table, rowMatchesAll q r = false) :
    runQuery db q = [] := by
  unfold runQuery
  have hf : (db.rowsOf q.table).filter (rowMatchesAll q) = [] :=
    List.filter_eq_nil_iff.mpr (fun a ha => by simp [h a ha])
  rw [hf]
  cases q.offsetN <;> cases q.limitN <;> simp

theorem runQuery_lazyRelQuery_nil (db : DB) (relatedEt : EntityType)
    (col : String) (v : Val)
    (h : ∀ r ∈ db.rowsOf relatedEt.tableName,
      sqlEq (getAttr r (resolveCol relatedEt.tableName col)) v = false) :
    runQuery db (lazyRelQuery relatedEt col v) = [] := by
  apply runQuery_eq_nil
  intro r hr
  have htab : (lazyRelQuery relatedEt col v).table = relatedEt.tableName := rfl
  rw [htab] at hr
  unfold rowMatchesAll
  have hpreds : (lazyRelQuery relatedEt col v).preds =
      (getBaseQuery relatedEt).preds ++ [Pred.eq col v, Pred.eq col v] := rfl
  rw [hpreds, htab, List.all_append]
  have hp : rowMatches relatedEt.tableName r (Pred.eq col v) = false := by
    unfold rowMatches
    exact h r hr
  simp [hp]

/-- C8 counterexample — the cardinality invariant fails on the lazy path:
`BelongsTo.addConstraints` skips the key constraint when the child's
foreign-key value is null, leaving the query unconstrained, so a child
with a null foreign key (which matches NO related row) lazily receives the
FIRST ROW of the related table instead of null. -/
theorem lazy_belongsTo_null_fk_counterexample :
    lazyBelongsTo libraryDb bookTy "owner_id" "id" (hydrate [("owner_id", Val.vNull)]) =
      .one (some (hydrate bookARow)) ∧
    ¬(RelVal.one (some (hydrate bookARow)) = RelVal.one none) := by
  refine ⟨by decide, by decide⟩

/-- C8 as amended — the cardinality defaults hold for every EAGER
resolution (the dictionary matching of all four relation kinds assigns the
empty array / null to a parent whose key matches no fetched result,
including parents with null keys), and on the LAZY path they hold for
has-many and has-one unconditionally and for belongs-to / many-to-many
whenever the parent-side key is non-null — a null parent-side key makes
`BelongsTo.addConstraints` / `BelongsToMany.addConstraints` skip the
constraint, and the unconstrained query's results (first row of the
related table / all of its rows) are returned instead of the defaults. -/
theorem relation_cardinality_defaults
    (db : DB) (relatedEt : EntityType)
    (fk lk ownerKey table fpk rpk parentKey relatedKey : String)
    (pivotColumns : List String)
    (models results : List MInst) (m : MInst) (rv : RelVal) :
    ((m, rv) ∈ matchResultsHasMany fk lk models results →
      (∀ r ∈ results, getAttr r.attributes fk = .vNull ∨
        (getAttr r.attributes fk).valKey ≠ (getAttr m.attributes lk).valKey) →
      rv = .many []) ∧
    ((m, rv) ∈ matchResultsHasOne fk lk models results →
      (∀ r ∈ results, getAttr r.attributes fk = .vNull ∨
        (getAttr r.attributes fk).valKey ≠ (getAttr m.attributes lk).valKey) →
      rv = .one none) ∧
    ((m, rv) ∈ matchResultsBelongsTo ownerKey fk models results →
      (∀ r ∈ results, getAttr r.attributes ownerKey = .vNull ∨
        (getAttr r.attributes ownerKey).valKey ≠ (getAttr m.attributes fk).valKey) →
      rv = .one none) ∧
    ((m, rv) ∈ matchResultsBtM fpk rpk parentKey relatedKey models results →
      (∀ r ∈ results, getAttr r.attributes ("pivot_" ++ fpk) = .vNull ∨
        (getAttr r.attributes ("pivot_" ++ fpk)).valKey ≠
          (getAttr m.attributes parentKey).valKey) →
      rv = .many []) ∧
    ((∀ r ∈ db.rowsOf relatedEt.tableName,
        sqlEq (getAttr r (resolveCol relatedEt.tableName fk))
          (getAttr m.attributes lk) = false) →
      lazyHasMany db relatedEt fk lk m = .many []) ∧
    ((∀ r ∈ db.rowsOf relatedEt.tableName,
        sqlEq (getAttr r (resolveCol relatedEt.tableName fk))
          (getAttr m.attributes lk) = false) →
      lazyHasOne db relatedEt fk lk m = .one none) ∧
    (getAttr m.attributes fk ≠ .vNull →
      (∀ r ∈ db.rowsOf relatedEt.tableName,
        sqlEq (getAttr r (resolveCol relatedEt.tableName ownerKey))
          (getAttr m.attributes fk) = false) →
      lazyBelongsTo db relatedEt fk ownerKey m = .one none) ∧
    (getAttr m.attributes parentKey ≠ .vNull →
      (∀ pr ∈ db.rowsOf table,
        sqlEq (getAttr pr fpk) (getAttr m.attributes parentKey) = false) →
      btmLazy db relatedEt table fpk rpk parentKey relatedKey pivotColumns m =
        .many []) := by
  refine ⟨?_, ?_, ?_, ?_, ?_, ?_, ?_, ?_⟩
  · intro hmem habs
    unfold matchResultsHasMany at hmem
    obtain ⟨m', hm', hpair⟩ := List.mem_map.mp hmem
    have h2 : rv = hasManyAssign (hasManyDict fk results) lk m := by
      have hm := congrArg Prod.fst hpair
      have hv := congrArg Prod.snd hpair
      simp only at hm hv
      rw [← hv, hm]
    rw [h2]
    exact hasManyAssign_of_absent _ _ _ (hasManyDict_absent _ _ _ habs)
  · intro hmem habs
    unfold matchResultsHasOne at hmem
    obtain ⟨m', hm', hpair⟩ := List.mem_map.mp hmem
    have h2 : rv = hasOneAssign (hasOneDict fk results) lk m := by
      have hm := congrArg Prod.fst hpair
      have hv := congrArg Prod.snd hpair
      simp only at hm hv
      rw [← hv, hm]
    rw [h2]
    exact hasOneAssign_of_absent _ _ _ (hasOneDict_absent _ _ _ habs)
  · intro hmem habs
    unfold matchResultsBelongsTo at hmem
    obtain ⟨m', hm', hpair⟩ := List.mem_map.mp hmem
    have h2 : rv = hasOneAssign (hasOneDict ownerKey results) fk m := by
      have hm := congrArg Prod.fst hpair
      have hv := congrArg Prod.snd hpair
      simp only at hm hv
      rw [← hv, hm]
    rw [h2]
    exact hasOneAssign_of_absent _ _ _ (hasOneDict_absent _ _ _ habs)
  · intro hmem habs
    unfold matchResultsBtM at hmem
    obtain ⟨m', hm', hpair⟩ := List.mem_map.mp hmem
    have h2 : rv = hasManyAssign
        (btmDict fpk relatedKey (btmPivotData fpk rpk results) results) parentKey m := by
      have hm := congrArg Prod.fst hpair
      have hv := congrArg Prod.snd hpair
      simp only at hm hv
      rw [← hv, hm]
    rw [h2]
    exact hasManyAssign_of_absent _ _ _ (btmDict_absent _ _ _ _ _ habs)
  · intro hyp
    unfold lazyHasMany
    rw [runQuery_lazyRelQuery_nil db relatedEt fk (getAttr m.attributes lk) hyp]
    rfl
  · intro hyp
    unfold lazyHasOne
    rw [runQuery_lazyRelQuery_nil db relatedEt fk (getAttr m.attributes lk) hyp]
    rfl
  · intro hnn hyp
    unfold lazyBelongsTo
    rw [if_pos hnn,
      runQuery_lazyRelQuery_nil db relatedEt ownerKey (getAttr m.attributes fk) hyp]
    rfl
  · intro hnn hyp
    unfold btmLazy
    rw [if_pos hnn]
    have hjoin : btmJoinWhere db relatedEt table fpk rpk relatedKey pivotColumns
        (getAttr m.attributes parentKey) = [] := by
      unfold btmJoinWhere
      apply List.flatMap_eq_nil_iff.mpr
      intro rr _
      apply List.filterMap_eq_nil_iff.mpr
      intro pr hpr
      rw [if_neg]
      simp only [Bool.and_eq_true, not_and]
      intro _ hc
      rw [hyp pr hpr] at hc
      simp at hc
    rw [hjoin]
    rfl

end Teloquent

namespace Teloquent

/-- A parent whose keys (`id = 99`, `owner_id = 42`) match no book and no
pivot row of `libraryDb`. -/
def strayParent : MInst :=
  hydrate [("id", Val.vInt 99), ("owner_id", Val.vInt 42)]

/-- C8 amended witness: against `libraryDb`, the stray parent receives the
empty array / null from every eager matching phase and from every lazy
path whose parent-side key is non-null. -/
theorem relation_cardinality_defaults_witness :
    hasManyAssign (hasManyDict "author_id" [hydrate bookARow]) "id" strayParent =
      .many [] ∧
    hasOneAssign (hasOneDict "author_id" [hydrate bookARow]) "id" strayParent =
      .one none ∧
    hasOneAssign (hasOneDict "id" [hydrate bookARow]) "owner_id" strayParent =
      .one none ∧
    hasManyAssign
      (btmDict "user_id" "id" (btmPivotData "user_id" "book_id" [hydrate bookARow])
        [hydrate bookARow]) "id" strayParent = .many [] ∧
    lazyHasMany libraryDb bookTy "author_id" "id" strayParent = .many [] ∧
    lazyHasOne libraryDb bookTy "author_id" "id" strayParent = .one none ∧
    lazyBelongsTo libraryDb bookTy "owner_id" "id" strayParent = .one none ∧
    btmLazy libraryDb bookTy "book_user" "user_id" "book_id" "id" "id" []
      strayParent = .many [] := by
  have hA := relation_cardinality_defaults libraryDb bookTy "author_id" "id" "id"
    "book_user" "user_id" "book_id" "id" "id" [] [strayParent] [hydrate bookARow]
    strayParent (hasManyAssign (hasManyDict "author_id" [hydrate bookARow]) "id"
      strayParent)
  have hB := relation_cardinality_defaults libraryDb bookTy "author_id" "id" "id"
    "book_user" "user_id" "book_id" "id" "id" [] [strayParent] [hydrate bookARow]
    strayParent (hasOneAssign (hasOneDict "author_id" [hydrate bookARow]) "id"
      strayParent)
  have hC := relation_cardinality_defaults libraryDb bookTy "owner_id" "id" "id"
    "book_user" "user_id" "book_id" "id" "id" [] [strayParent] [hydrate bookARow]
    strayParent (hasOneAssign (hasOneDict "id" [hydrate bookARow]) "owner_id"
      strayParent)
  have hD := relation_cardinality_defaults libraryDb bookTy "author_id" "id" "id"
    "book_user" "user_id" "book_id" "id" "id" [] [strayParent] [hydrate bookARow]
    strayParent (hasManyAssign
      (btmDict "user_id" "id" (btmPivotData "user_id" "book_id" [hydrate bookARow])
        [hydrate bookARow]) "id" strayParent)
  refine ⟨hA.1 (by decide) (by decide),
    hB.2.1 (by decide) (by decide),
    hC.2.2.1 (by decide) (by decide),
    hD.2.2.2.1 (by decide) (by decide),
    hA.2.2.2.2.1 (by decide),
    hA.2.2.2.2.2.1 (by decide),
    hC.2.2.2.2.2.2.1 (by decide) (by decide),
    hA.2.2.2.2.2.2.2 (by decide) (by decide)⟩

end Teloquent

namespace Teloquent

/-! ## C6 — many-to-many sync is detach-all-then-attach -/

/-- The attribute row of one formatted pivot record. -/
theorem getAttr_attachRecord (fpk rpk : String) (pv id : Val)
    (extra : List (String × Val))
    (hextra : ∀ p ∈ extra, p.1 ≠ fpk ∧ p.1 ≠ rpk) (hkeys : fpk ≠ rpk) :
    getAttr (objFromList ([(fpk, pv), (rpk, id)] ++ extra)) fpk = pv ∧
    getAttr (objFromList ([(fpk, pv), (rpk, id)] ++ extra)) rpk = id := by
  unfold objFromList
  rw [List.foldl_append]
  constructor
  · rw [getAttr_foldl_setAttr_of_notin extra _ fpk (fun p hp => (hextra p hp).1)]
    simp only [List.foldl_cons, List.foldl_nil]
    rw [getAttr_setAttr_ne _ _ _ _ hkeys, getAttr_setAttr_self]
  · rw [getAttr_foldl_setAttr_of_notin extra _ rpk (fun p hp => (hextra p hp).2)]
    simp only [List.foldl_cons, List.foldl_nil]
    rw [getAttr_setAttr_self]

theorem formatAttachRecords_eq_map (fpk rpk : String) (pv : Val) (ids : List Val)
    (extra : List (String × Val)) (hpv : pv ≠ .vNull)
    (hnn : ∀ id ∈ ids, id ≠ Val.vNull) :
    formatAttachRecords fpk rpk pv ids extra =
      ids.map (fun id => objFromList ([(fpk, pv), (rpk, id)] ++ extra)) := by
  unfold formatAttachRecords
  rw [if_neg hpv]
  induction ids with
  | nil => rfl
  | cons i t ih =>
    have hi : i ≠ Val.vNull := hnn i (List.mem_cons_self i t)
    rw [List.filterMap_cons, List.map_cons]
    simp only [hi, ne_eq, not_false_eq_true, if_true, ite_true]
    rw [ih (fun x hx => hnn x (List.mem_cons_of_mem i hx))]

/-- C6 — `sync(ids, extra?)` on a parent with a non-null key first deletes
ALL pivot rows whose foreign-pivot-key equals the parent's key (rows of
other parents untouched) and then inserts one fresh pivot row per given id
carrying `{parentKey, relatedKey, extra}`; consequently, for ANY prior
pivot contents — in particular after `attach([1,2])` — a subsequent
`sync(ids)` leaves the parent with pivot rows for exactly the given ids,
in order. -/
theorem sync_is_full_replace (pivot : List Row) (fpk rpk : String) (pv : Val)
    (ids : List Val) (extra : List (String × Val))
    (hpv : pv ≠ .vNull) (hids : ids ≠ []) (hnn : ∀ id ∈ ids, id ≠ Val.vNull)
    (hextra : ∀ p ∈ extra, p.1 ≠ fpk ∧ p.1 ≠ rpk) (hkeys : fpk ≠ rpk) :
    btmSync pivot fpk rpk pv ids extra =
      pivot.filter (fun r => !sqlEq (getAttr r fpk) pv) ++
        ids.map (fun id => objFromList ([(fpk, pv), (rpk, id)] ++ extra)) ∧
    ((btmSync (btmAttach pivot fpk rpk pv [Val.vInt 1, Val.vInt 2] []) fpk rpk pv
        ids extra).filter (fun r => sqlEq (getAttr r fpk) pv)).map
      (fun r => getAttr r rpk) = ids := by
  have hrec := formatAttachRecords_eq_map fpk rpk pv ids extra hpv hnn
  have hne : ids.isEmpty = false := by
    cases ids with
    | nil => exact absurd rfl hids
    | cons i t => rfl
  have hdetach : ∀ (p : List Row), btmDetach p fpk rpk pv none =
      p.filter (fun r => !sqlEq (getAttr r fpk) pv) := by
    intro p
    unfold btmDetach
    exact List.filter_congr (fun r _ => by rw [Bool.and_true])
  have hmain : ∀ (p : List Row), btmSync p fpk rpk pv ids extra =
      p.filter (fun r => !sqlEq (getAttr r fpk) pv) ++
        ids.map (fun id => objFromList ([(fpk, pv), (rpk, id)] ++ extra)) := by
    intro p
    unfold btmSync btmAttach
    rw [hne]
    simp only [Bool.false_eq_true, if_false]
    rw [hrec, hdetach]
    have hrne : (ids.map (fun id => objFromList ([(fpk, pv), (rpk, id)] ++ extra))).isEmpty
        = false := by
      cases ids with
      | nil => exact absurd rfl hids
      | cons i t => rfl
    rw [hrne]
    simp
  refine ⟨hmain pivot, ?_⟩
  rw [hmain (btmAttach pivot fpk rpk pv [Val.vInt 1, Val.vInt 2] [])]
  rw [List.filter_append]
  have hleft : ((btmAttach pivot fpk rpk pv [Val.vInt 1, Val.vInt 2] []).filter
      (fun r => !sqlEq (getAttr r fpk) pv)).filter
      (fun r => sqlEq (getAttr r fpk) pv) = [] := by
    rw [List.filter_filter]
    have : ∀ r ∈ btmAttach pivot fpk rpk pv [Val.vInt 1, Val.vInt 2] [],
        (sqlEq (getAttr r fpk) pv && !sqlEq (getAttr r fpk) pv) = false := by
      intro r _
      cases sqlEq (getAttr r fpk) pv <;> rfl
    rw [List.filter_congr (fun r hr => this r hr), List.filter_false]
  have hright : (ids.map (fun id => objFromList ([(fpk, pv), (rpk, id)] ++ extra))).filter
      (fun r => sqlEq (getAttr r fpk) pv) =
      ids.map (fun id => objFromList ([(fpk, pv), (rpk, id)] ++ extra)) := by
    apply List.filter_eq_self.mpr
    intro r hr
    obtain ⟨id, _, hid⟩ := List.mem_map.mp hr
    rw [← hid, (getAttr_attachRecord fpk rpk pv id extra hextra hkeys).1]
    unfold sqlEq
    simp [hpv]
  rw [hleft, hright, List.nil_append, List.map_map]
  have hcomp : ∀ id ∈ ids,
      ((fun r => getAttr r rpk) ∘
        (fun id => objFromList ([(fpk, pv), (rpk, id)] ++ extra))) id = id := by
    intro id _
    simp only [Function.comp]
    exact (getAttr_attachRecord fpk rpk pv id extra hextra hkeys).2
  calc ids.map _ = ids.map id := List.map_congr_left hcomp
    _ = ids := List.map_id ids

/-- C6 witness: parent key 7, pivot `user_roles(user_id, role_id)`; after
`attach([1,2])` then `sync([2,3])`, the parent's pivot rows are exactly
for related ids 2 and 3. -/
theorem sync_is_full_replace_witness :
    btmSync [] "user_id" "role_id" (Val.vInt 7) [Val.vInt 2, Val.vInt 3] [] =
      ([] : List Row).filter (fun r => !sqlEq (getAttr r "user_id") (Val.vInt 7)) ++
        [Val.vInt 2, Val.vInt 3].map (fun id =>
          objFromList ([("user_id", Val.vInt 7), ("role_id", id)] ++ [])) ∧
    ((btmSync (btmAttach [] "user_id" "role_id" (Val.vInt 7) [Val.vInt 1, Val.vInt 2] [])
        "user_id" "role_id" (Val.vInt 7) [Val.vInt 2, Val.vInt 3] []).filter
      (fun r => sqlEq (getAttr r "user_id") (Val.vInt 7))).map
      (fun r => getAttr r "role_id") = [Val.vInt 2, Val.vInt 3] :=
  sync_is_full_replace [] "user_id" "role_id" (Val.vInt 7) [Val.vInt 2, Val.vInt 3] []
    (by decide) (by decide) (by decide) (by decide) (by decide)

end Teloquent

namespace Teloquent

/-- C10 — `takeLast(0)` returns ALL elements in order, because
`slice(-0)` is `slice(0)`; and for `n ≥ 1`, `takeLast(n)` returns the last
`min(n, count)` elements in order (the suffix obtained by dropping the
first `count − n`). -/
theorem takeLast_zero_returns_all_and_pos_suffix (items : List Val) (n : Nat) :
    Collection.takeLast items 0 = items ∧
    (1 ≤ n → Collection.takeLast items n = items.drop (items.length - n) ∧
      (Collection.takeLast items n).length = min n items.length) :=
  ⟨takeLast_zero items, fun h => by
    have he := takeLast_pos items n h
    refine ⟨he, ?_⟩
    rw [he, List.length_drop]
    omega⟩

/-- C10 witness: `takeLast 0` on a three-element collection returns all
three; `takeLast 2` returns the last two. -/
theorem takeLast_zero_returns_all_witness :
    Collection.takeLast [Val.vInt 1, Val.vInt 2, Val.vInt 3] 0 =
      [Val.vInt 1, Val.vInt 2, Val.vInt 3] ∧
    Collection.takeLast [Val.vInt 1, Val.vInt 2, Val.vInt 3] 2 =
      [Val.vInt 2, Val.vInt 3] := by
  have h := takeLast_zero_returns_all_and_pos_suffix [Val.vInt 1, Val.vInt 2, Val.vInt 3] 2
  exact ⟨h.1, ((h.2 (by decide)).1).trans (by decide)⟩

end Teloquent
